import Mathlib

/-
Verification of the hierarchical task-execution tree (task.py).

Embedding conventions:
- `Task` is the tree of nodes; a node carries `title`, an optional
  `executable`, an optional `context` and an ordered list of children.
  Python `None` maps to `Option.none`; an executable that raises is a
  function into `Except ε ρ` returning `Except.error`.
- Nodes are identified by their path from the run root (the list of child
  indices); the Python `parent` back-reference of the node at path `p` is
  the node at `p.dropLast`, the run root has path `[]`.
- The mutable per-node `stage` fields are a path-indexed map `SMap`
  threaded through the run; the per-node `uuid` identities are an
  arbitrary assignment `List Nat → String`.
- `run_sync` additionally returns instrumentation traces: the list of
  `update_stage` transitions performed, the list of observer invocations
  (pairs `(stage, path)` in invocation order, empty when no observer was
  supplied, `obs = false`), and the list of executable invocations
  (`Call` records: path, resolved context, previous result, outcome).
- Type parameters: `γ` contexts, `ε` errors (with `ToString` for the
  Python `str(error)` fallback), `ρ` result values.
-/

namespace Pyext

instance {ε α : Type} [DecidableEq ε] [DecidableEq α] : DecidableEq (Except ε α) :=
  fun x y =>
    match x, y with
    | .ok a, .ok b =>
      if h : a = b then .isTrue (by rw [h]) else .isFalse (by simp [h])
    | .ok _, .error _ => .isFalse (by simp)
    | .error _, .ok _ => .isFalse (by simp)
    | .error a, .error b =>
      if h : a = b then .isTrue (by rw [h]) else .isFalse (by simp [h])

-- region Stage model

structure Stage (ε ρ : Type) where
  name : String
  message : Option String := none
  data : Option ρ := none
  error : Option ε := none
deriving DecidableEq

/-- Python `str` applied to an optional error: `str(None) = "None"`. -/
def pystr {ε : Type} [ToString ε] : Option ε → String
  | none => "None"
  | some e => toString e

def Stage.running {ε ρ : Type} (message : String := "None") : Stage ε ρ :=
  { name := "running", message := some message }

def Stage.success {ε ρ : Type} (message : Option String := none)
    (data : Option ρ := none) : Stage ε ρ :=
  { name := "success", message := message, data := data }

/-- The classmethod failed: the message falls back to Python str of the
error when the given
message is falsy (absent or empty). -/
def Stage.failed {ε ρ : Type} [ToString ε] (message : Option String := none)
    (error : Option ε := none) : Stage ε ρ :=
  { name := "failed",
    message := some (match message with
      | some s => if s = "" then pystr error else s
      | none => pystr error),
    error := error }

def Stage.success_completed {ε ρ : Type} (message : Option String := none)
    (data : Option ρ := none) : Stage ε ρ :=
  { name := "success_completed", message := message, data := data }

def Stage.failed_completed {ε ρ : Type} (message : Option String := none)
    (error : Option ε := none) : Stage ε ρ :=
  { name := "failed_completed", message := message, error := error }

def Stage.is_completed {ε ρ : Type} (s : Stage ε ρ) : Bool :=
  s.name == "success_completed" || s.name == "failed_completed"

def Stage.to_dict {ε ρ : Type} (s : Stage ε ρ) : String × Option String :=
  (s.name, s.message)

-- endregion

-- region Task tree model

mutual
inductive Task (γ ε ρ : Type) : Type where
  | mk (title : String) (executable : Option (Option γ → ρ → Except ε ρ))
       (context : Option γ) (children : Tasks γ ε ρ)
inductive Tasks (γ ε ρ : Type) : Type where
  | nil
  | cons (c : Task γ ε ρ) (cs : Tasks γ ε ρ)
end

def Task.title {γ ε ρ : Type} : Task γ ε ρ → String
  | .mk ti _ _ _ => ti

def Task.executable {γ ε ρ : Type} :
    Task γ ε ρ → Option (Option γ → ρ → Except ε ρ)
  | .mk _ ex _ _ => ex

def Task.context {γ ε ρ : Type} : Task γ ε ρ → Option γ
  | .mk _ _ cx _ => cx

def Task.children {γ ε ρ : Type} : Task γ ε ρ → Tasks γ ε ρ
  | .mk _ _ _ cs => cs

def Tasks.get? {γ ε ρ : Type} : Tasks γ ε ρ → Nat → Option (Task γ ε ρ)
  | .nil, _ => none
  | .cons c _, 0 => some c
  | .cons _ cs, n + 1 => cs.get? n

def Tasks.ofList {γ ε ρ : Type} : List (Task γ ε ρ) → Tasks γ ε ρ
  | [] => .nil
  | t :: ts => .cons t (Tasks.ofList ts)

def Tasks.isNil {γ ε ρ : Type} : Tasks γ ε ρ → Bool
  | .nil => true
  | .cons _ _ => false

/-- The node of `t` at path `p` (child indices from the root), if any. -/
def sub {γ ε ρ : Type} : Task γ ε ρ → List Nat → Option (Task γ ε ρ)
  | t, [] => some t
  | t, i :: p =>
    match t.children.get? i with
    | some c => sub c p
    | none => none

def execAt {γ ε ρ : Type} (t : Task γ ε ρ) (p : List Nat) :
    Option (Option γ → ρ → Except ε ρ) :=
  (sub t p).bind Task.executable

def ctxAt {γ ε ρ : Type} (t : Task γ ε ρ) (p : List Nat) : Option γ :=
  (sub t p).bind Task.context

/-- The ancestor enumeration on paths: walk the parent link (drop the last
index) recursively, then append the parent — computed structurally on the
reversed path, whose tail is the reversed parent path. -/
def gaAux : List Nat → List (List Nat)
  | [] => []
  | _ :: rp => gaAux rp ++ [rp.reverse]

def get_ancestors (p : List Nat) : List (List Nat) := gaAux p.reverse

/-- Context lookup walking up: the node's own context if set, else recurse
on the parent, else `None` — structurally on the reversed path. -/
def fcAux {γ ε ρ : Type} (t : Task γ ε ρ) : List Nat → Option γ
  | [] => ctxAt t []
  | i :: rp =>
    match ctxAt t (i :: rp).reverse with
    | some c => some c
    | none => fcAux t rp

def find_context {γ ε ρ : Type} (t : Task γ ε ρ) (p : List Nat) : Option γ :=
  fcAux t p.reverse

-- endregion

-- region Execution engine

/-- A collected executable-bearing node: its path, title and executable. -/
structure ENode (γ ε ρ : Type) where
  path : List Nat
  title : String
  exec : Option γ → ρ → Except ε ρ

mutual
/-- The nested collector `_run_sync`: visit the node (keep it when it has
an executable), then recurse into the children in declared order. -/
def run_collect {γ ε ρ : Type} : Task γ ε ρ → List Nat → List (ENode γ ε ρ)
  | .mk ti ex _ cs, pre =>
    (match ex with
     | some f => [⟨pre, ti, f⟩]
     | none => []) ++ run_collect_children cs pre 0
def run_collect_children {γ ε ρ : Type} :
    Tasks γ ε ρ → List Nat → Nat → List (ENode γ ε ρ)
  | .nil, _, _ => []
  | .cons c cs, pre, i =>
    run_collect c (pre ++ [i]) ++ run_collect_children cs pre (i + 1)
end

/-- The per-node mutable `stage` fields, keyed by path. -/
def SMap (ε ρ : Type) : Type := List Nat → Option (Stage ε ρ)

def setStage {ε ρ : Type} (st : SMap ε ρ) (p : List Nat) (s : Stage ε ρ) :
    SMap ε ρ :=
  fun q => if q = p then some s else st q

/-- The ancestor copy of a stage: same stage with `message` cleared. -/
def clear_message {ε ρ : Type} (s : Stage ε ρ) : Stage ε ρ :=
  { s with message := none }

/-- Stage update: store the stage on the node; when an observer was
supplied (`obs`), also store a message-cleared copy on every ancestor and
record the observer invocations, ancestors root-first and the node last. -/
def update_stage {ε ρ : Type} (obs : Bool) (p : List Nat) (s : Stage ε ρ)
    (st : SMap ε ρ) : SMap ε ρ × List (Stage ε ρ × List Nat) :=
  let st1 := setStage st p s
  if obs then
    ((get_ancestors p).foldl (fun m a => setStage m a (clear_message s)) st1,
     (get_ancestors p).map (fun a => (clear_message s, a)) ++ [(s, p)])
  else
    (st1, [])

/-- One executable invocation: the node's path, the resolved context, the
`previous_result` passed in, and the outcome. -/
structure Call (γ ε ρ : Type) where
  path : List Nat
  ctx : Option γ
  prev : ρ
  result : Except ε ρ
deriving DecidableEq

/-- The observable outcome of a run: the final stage fields, the sequence
of stage transitions, the observer invocations, the executable
invocations, and the returned value or propagated error. -/
structure RunOut (γ ε ρ : Type) where
  stages : SMap ε ρ
  transitions : List (List Nat × Stage ε ρ)
  events : List (Stage ε ρ × List Nat)
  calls : List (Call γ ε ρ)
  result : Except ε ρ

/-- The `for task in tasks` loop of `run_sync`: transition to `running`,
invoke the executable on the resolved context and the threaded
`last_result`; on success transition to `success` and continue, on a raise
transition to `failed` and stop with the error. -/
def runLoop {γ ε ρ : Type} [ToString ε] (obs : Bool) (t : Task γ ε ρ) :
    List (ENode γ ε ρ) → ρ → SMap ε ρ → RunOut γ ε ρ
  | [], res, st => ⟨st, [], [], [], Except.ok res⟩
  | n :: ns, res, st =>
    let sR : Stage ε ρ := Stage.running ("Running task [" ++ n.title ++ "]...")
    let u1 := update_stage obs n.path sR st
    let c := find_context t n.path
    match n.exec c res with
    | Except.ok r =>
      let sS : Stage ε ρ :=
        Stage.success (some ("Task [" ++ n.title ++ "] succeeded.")) none
      let u2 := update_stage obs n.path sS u1.1
      let rest := runLoop obs t ns r u2.1
      ⟨rest.stages,
       (n.path, sR) :: (n.path, sS) :: rest.transitions,
       u1.2 ++ u2.2 ++ rest.events,
       ⟨n.path, c, res, Except.ok r⟩ :: rest.calls,
       rest.result⟩
    | Except.error e =>
      let sF : Stage ε ρ :=
        Stage.failed (some ("Task [" ++ n.title ++ "] failed.")) (some e)
      let u2 := update_stage obs n.path sF u1.1
      ⟨u2.1,
       [(n.path, sR), (n.path, sF)],
       u1.2 ++ u2.2,
       [⟨n.path, c, res, Except.error e⟩],
       Except.error e⟩

/-- The run entry point on the root of `t`: collect the executable-bearing
nodes pre-order, run the loop, and in the `finally` step transition the
root to `success_completed` carrying the final `last_result`, or to
`failed_completed` carrying the captured error, which is then
propagated. -/
def run_sync {γ ε ρ : Type} [ToString ε] (obs : Bool) (t : Task γ ε ρ)
    (st0 : SMap ε ρ) (r0 : ρ) : RunOut γ ε ρ :=
  let L := runLoop obs t (run_collect t []) r0 st0
  match L.result with
  | Except.ok res =>
    let sC : Stage ε ρ :=
      Stage.success_completed (some ("Task [" ++ t.title ++ "] completed.")) (some res)
    let u := update_stage obs [] sC L.stages
    ⟨u.1, L.transitions ++ [([], sC)], L.events ++ u.2, L.calls, Except.ok res⟩
  | Except.error e =>
    let sC : Stage ε ρ :=
      Stage.failed_completed (some ("Task [" ++ t.title ++ "] failed.")) (some e)
    let u := update_stage obs [] sC L.stages
    ⟨u.1, L.transitions ++ [([], sC)], L.events ++ u.2, L.calls, Except.error e⟩

-- endregion

-- region Task decorator

/-- The `task` decorator: with a falsy `dependencies` list, a single node
wrapping the decorated function; otherwise a synthetic root with no
executable whose children are the tasks produced by the dependency
factories, in order, followed by one node wrapping the decorated function
under the same title (the `parent` reassignment of the Python code is the
structural attachment of these children to the root). -/
def task {γ ε ρ : Type} (title : String) (context : Option γ)
    (dependencies : List (Unit → Task γ ε ρ))
    (wrapped : Option γ → ρ → Except ε ρ) : Task γ ε ρ :=
  if dependencies.isEmpty then
    Task.mk title (some wrapped) context Tasks.nil
  else
    let dependent_tasks : List (Task γ ε ρ) := dependencies.map (fun f => f ())
    Task.mk title none context
      (Tasks.ofList (dependent_tasks ++ [Task.mk title (some wrapped) none Tasks.nil]))

-- endregion

-- region Serialization

mutual
inductive TaskDict : Type where
  | mk (id : String) (title : String) (stage : Option (String × Option String))
       (children : Option TaskDicts)
inductive TaskDicts : Type where
  | nil
  | cons (d : TaskDict) (ds : TaskDicts)
end

mutual
/-- Serialization: id, title, the serialized current stage (or `none`
when unset), and the recursively serialized children (or `none` when there
are none). `ids` assigns each node its uuid, `st` holds the current stage
fields. -/
def Task.to_dict {γ ε ρ : Type} (ids : List Nat → String) (st : SMap ε ρ) :
    Task γ ε ρ → List Nat → TaskDict
  | .mk ti _ _ cs, p =>
    TaskDict.mk (ids p) ti ((st p).map Stage.to_dict)
      (if cs.isNil then none else some (Tasks.to_dicts ids st cs p 0))
def Tasks.to_dicts {γ ε ρ : Type} (ids : List Nat → String) (st : SMap ε ρ) :
    Tasks γ ε ρ → List Nat → Nat → TaskDicts
  | .nil, _, _ => .nil
  | .cons c cs, p, i =>
    .cons (Task.to_dict ids st c (p ++ [i])) (Tasks.to_dicts ids st cs p (i + 1))
end

def TaskDicts.get? : TaskDicts → Nat → Option TaskDict
  | .nil, _ => none
  | .cons d _, 0 => some d
  | .cons _ ds, n + 1 => ds.get? n

/-- The serialized stage entry of the node at path `p` inside a serialized
tree, `none` when the path leaves the tree. -/
def TaskDict.stageAt : TaskDict → List Nat → Option (Option (String × Option String))
  | .mk _ _ s _, [] => some s
  | .mk _ _ _ cso, i :: p =>
    match cso with
    | none => none
    | some ds =>
      match ds.get? i with
      | some d => d.stageAt p
      | none => none

mutual
/-- Every `stage` entry in the serialized tree is absent. -/
def TaskDict.stagesNone : TaskDict → Bool
  | .mk _ _ s cso =>
    s.isNone && (match cso with
      | none => true
      | some ds => ds.stagesNone)
def TaskDicts.stagesNone : TaskDicts → Bool
  | .nil => true
  | .cons d ds => d.stagesNone && ds.stagesNone
end

-- endregion

-- region Path order and executable totality

/-- The strict depth-first pre-order on paths: a node strictly precedes
every node in its subtree, and an earlier sibling subtree precedes a later
one. -/
def preLt : List Nat → List Nat → Bool
  | [], [] => false
  | [], _ :: _ => true
  | _ :: _, [] => false
  | a :: p, b :: q => decide (a < b) || (a == b && preLt p q)

/-- An executable that never raises. -/
def execOk {γ ε ρ : Type} (f : Option γ → ρ → Except ε ρ) : Prop :=
  ∀ c r, ∃ v, f c r = Except.ok v

-- endregion

-- region Induction principles for the mutual tree type

theorem task_ind {γ ε ρ : Type} {P : Task γ ε ρ → Prop} {Q : Tasks γ ε ρ → Prop}
    (hmk : ∀ ti ex cx cs, Q cs → P (.mk ti ex cx cs))
    (hnil : Q .nil) (hcons : ∀ c cs, P c → Q cs → Q (.cons c cs)) :
    (∀ t, P t) ∧ (∀ cs, Q cs) :=
  ⟨fun t => @Task.rec γ ε ρ P Q hmk hnil hcons t,
   fun cs => @Tasks.rec γ ε ρ P Q hmk hnil hcons cs⟩

theorem tasks_ind {γ ε ρ : Type} {Q : Tasks γ ε ρ → Prop} (hnil : Q .nil)
    (hcons : ∀ c cs, Q cs → Q (.cons c cs)) : ∀ cs, Q cs :=
  fun cs => @Tasks.rec γ ε ρ (fun _ => True) Q (fun _ _ _ _ _ => trivial) hnil
    (fun c cs _ h => hcons c cs h) cs

-- endregion

-- region Ancestor-path lemmas

theorem gaAux_eq : ∀ rp : List Nat,
    gaAux rp = (List.range rp.length).map (fun k => rp.reverse.take k) := by
  intro rp
  induction rp with
  | nil => simp [gaAux]
  | cons i rp ih =>
    simp only [gaAux, ih, List.length_cons, List.range_succ, List.map_append,
      List.map_cons, List.map_nil, List.reverse_cons]
    congr 1
    · apply List.map_congr_left
      intro k hk
      have hk' : k ≤ rp.reverse.length := by
        simp only [List.mem_range] at hk
        simp [Nat.le_of_lt hk]
      rw [List.take_append_of_le_length hk']
    · rw [List.take_append_of_le_length (by simp)]
      simp

theorem get_ancestors_eq (p : List Nat) :
    get_ancestors p = (List.range p.length).map (fun k => p.take k) := by
  simp [get_ancestors, gaAux_eq]

theorem get_ancestors_nil : get_ancestors ([] : List Nat) = [] := rfl

theorem mem_get_ancestors {q p : List Nat} (h : q ∈ get_ancestors p) :
    q.length < p.length := by
  rw [get_ancestors_eq] at h
  obtain ⟨k, hk, rfl⟩ := List.mem_map.mp h
  simp only [List.mem_range] at hk
  simp [List.length_take, hk]

theorem self_not_mem_get_ancestors (p : List Nat) : p ∉ get_ancestors p := by
  intro h
  exact absurd (mem_get_ancestors h) (lt_irrefl _)

theorem get_ancestors_getLast {p : List Nat} (h : p ≠ []) :
    (get_ancestors p).getLast? = some p.dropLast := by
  obtain ⟨m, hm⟩ : ∃ m, p.length = m + 1 :=
    ⟨p.length - 1, by have := List.length_pos.mpr h; omega⟩
  rw [get_ancestors_eq, hm, List.range_succ, List.map_append, List.map_cons,
    List.map_nil, List.getLast?_concat, List.dropLast_eq_take, hm]
  simp

theorem get_ancestors_append_one (p : List Nat) (i : Nat) :
    get_ancestors (p ++ [i]) = get_ancestors p ++ [p] := by
  simp [get_ancestors, List.reverse_append, gaAux]

-- endregion

-- region Stage-map lemmas

theorem setStage_apply {ε ρ : Type} (st : SMap ε ρ) (p : List Nat)
    (s : Stage ε ρ) (q : List Nat) :
    setStage st p s q = if q = p then some s else st q := rfl

theorem foldl_setStage {ε ρ : Type} :
    ∀ (l : List (List Nat)) (st : SMap ε ρ) (v : Stage ε ρ) (q : List Nat),
      (l.foldl (fun m a => setStage m a v) st) q = if q ∈ l then some v else st q := by
  intro l
  induction l with
  | nil => intro st v q; simp
  | cons a l ih =>
    intro st v q
    simp only [List.foldl_cons, ih, List.mem_cons]
    by_cases hql : q ∈ l
    · simp [hql]
    · by_cases hqa : q = a
      · simp [hqa, hql, setStage]
      · simp [hqa, hql, setStage]

theorem update_stage_fst {ε ρ : Type} (obs : Bool) (p : List Nat)
    (s : Stage ε ρ) (st : SMap ε ρ) (q : List Nat) :
    (update_stage obs p s st).1 q =
      if obs ∧ q ∈ get_ancestors p then some (clear_message s)
      else if q = p then some s else st q := by
  cases obs with
  | false => simp [update_stage, setStage_apply]
  | true =>
    simp only [update_stage, if_true, foldl_setStage, true_and]
    by_cases hq : q ∈ get_ancestors p
    · simp [hq]
    · simp [hq, setStage]

theorem update_stage_self {ε ρ : Type} (obs : Bool) (p : List Nat)
    (s : Stage ε ρ) (st : SMap ε ρ) :
    (update_stage obs p s st).1 p = some s := by
  rw [update_stage_fst]
  simp [self_not_mem_get_ancestors p]

theorem update_stage_snd {ε ρ : Type} (obs : Bool) (p : List Nat)
    (s : Stage ε ρ) (st : SMap ε ρ) :
    (update_stage obs p s st).2 =
      if obs then (get_ancestors p).map (fun a => (clear_message s, a)) ++ [(s, p)]
      else [] := by
  cases obs <;> rfl

theorem clear_message_eq {ε ρ : Type} (s : Stage ε ρ) :
    clear_message s = { name := s.name, message := none, data := s.data, error := s.error } := rfl

-- endregion

-- region Pre-order lemmas

theorem preLt_irrefl : ∀ p : List Nat, preLt p p = false := by
  intro p
  induction p with
  | nil => rfl
  | cons a p ih => simp [preLt, ih]

theorem preLt_ne {p q : List Nat} (h : preLt p q = true) : p ≠ q := by
  intro hEq
  rw [hEq, preLt_irrefl] at h
  exact Bool.false_ne_true h

theorem preLt_append_right : ∀ (pre q : List Nat), q ≠ [] →
    preLt pre (pre ++ q) = true := by
  intro pre
  induction pre with
  | nil =>
    intro q hq
    cases q with
    | nil => exact absurd rfl hq
    | cons i q => simp [preLt]
  | cons a pre ih =>
    intro q hq
    simp [preLt, ih q hq]

theorem preLt_append_congr : ∀ (pre a b : List Nat),
    preLt (pre ++ a) (pre ++ b) = preLt a b := by
  intro pre
  induction pre with
  | nil => intro a b; rfl
  | cons x pre ih => intro a b; simp [preLt, ih]

theorem preLt_index_lt (pre : List Nat) {i j : Nat} (x y : List Nat)
    (h : i < j) : preLt (pre ++ i :: x) (pre ++ j :: y) = true := by
  rw [preLt_append_congr]
  simp [preLt, h]

-- endregion

-- region Context-resolution lemmas

theorem fcAux_eq {γ ε ρ : Type} (t : Task γ ε ρ) : ∀ rp : List Nat,
    fcAux t rp =
      ((rp.reverse :: (gaAux rp).reverse).map (fun q => ctxAt t q)).findSome? id := by
  intro rp
  induction rp with
  | nil =>
    show ctxAt t [] = ([ctxAt t []].findSome? id)
    cases h : ctxAt t [] <;> simp [List.findSome?, h]
  | cons i rp ih =>
    have hrev : (gaAux (i :: rp)).reverse = rp.reverse :: (gaAux rp).reverse := by
      show (gaAux rp ++ [rp.reverse]).reverse = _
      simp
    rw [show fcAux t (i :: rp) = (match ctxAt t ((i :: rp).reverse) with
        | some c => some c
        | none => fcAux t rp) from rfl]
    rw [hrev, ih]
    simp only [List.reverse_cons]
    cases h : ctxAt t (rp.reverse ++ [i]) <;> simp [List.findSome?, h]

theorem find_context_eq {γ ε ρ : Type} (t : Task γ ε ρ) (p : List Nat) :
    find_context t p =
      ((p :: (get_ancestors p).reverse).map (fun q => ctxAt t q)).findSome? id := by
  have h := fcAux_eq t p.reverse
  rw [List.reverse_reverse] at h
  exact h

-- endregion

-- region Collection lemmas

theorem execAt_nil {γ ε ρ : Type} (ti : String)
    (ex : Option (Option γ → ρ → Except ε ρ)) (cx : Option γ) (cs : Tasks γ ε ρ) :
    execAt (Task.mk ti ex cx cs) [] = ex := rfl

theorem execAt_cons {γ ε ρ : Type} (t : Task γ ε ρ) (i : Nat) (p : List Nat) :
    execAt t (i :: p) = (match (Task.children t).get? i with
      | some c => execAt c p
      | none => none) := by
  cases h : (Task.children t).get? i <;> simp [execAt, sub, h]

theorem run_collect_extends {γ ε ρ : Type} :
    (∀ t : Task γ ε ρ, ∀ pre n, n ∈ run_collect t pre → ∃ q, n.path = pre ++ q) ∧
    (∀ cs : Tasks γ ε ρ, ∀ pre i n, n ∈ run_collect_children cs pre i →
      ∃ j q, i ≤ j ∧ n.path = pre ++ j :: q) := by
  refine task_ind ?_ ?_ ?_
  · intro ti ex cx cs hQ pre n hn
    cases ex with
    | some f =>
      simp only [run_collect, List.mem_append, List.mem_singleton] at hn
      rcases hn with h | h
      · exact ⟨[], by simp [h]⟩
      · obtain ⟨j, q, _, hp⟩ := hQ pre 0 n h
        exact ⟨j :: q, hp⟩
    | none =>
      simp only [run_collect, List.nil_append] at hn
      obtain ⟨j, q, _, hp⟩ := hQ pre 0 n hn
      exact ⟨j :: q, hp⟩
  · intro pre i n hn
    simp [run_collect_children] at hn
  · intro c cs hP hQ pre i n hn
    simp only [run_collect_children, List.mem_append] at hn
    rcases hn with h | h
    · obtain ⟨q, hq⟩ := hP (pre ++ [i]) n h
      exact ⟨i, q, le_refl i, by simp [hq]⟩
    · obtain ⟨j, q, hij, hp⟩ := hQ pre (i + 1) n h
      exact ⟨j, q, by omega, hp⟩

theorem run_collect_pairwise {γ ε ρ : Type} :
    (∀ t : Task γ ε ρ, ∀ pre,
      List.Pairwise (fun a b => preLt a.path b.path = true) (run_collect t pre)) ∧
    (∀ cs : Tasks γ ε ρ, ∀ pre i,
      List.Pairwise (fun a b => preLt a.path b.path = true)
        (run_collect_children cs pre i)) := by
  refine task_ind ?_ ?_ ?_
  · intro ti ex cx cs hQ pre
    cases ex with
    | none => simpa [run_collect] using hQ pre 0
    | some f =>
      simp only [run_collect]
      refine List.pairwise_append.mpr ⟨by simp, hQ pre 0, ?_⟩
      intro a ha b hb
      simp only [List.mem_singleton] at ha
      obtain ⟨j, q, _, hbp⟩ := run_collect_extends.2 cs pre 0 b hb
      rw [ha, hbp]
      exact preLt_append_right pre (j :: q) (by simp)
  · intro pre i
    simp [run_collect_children]
  · intro c cs hP hQ pre i
    simp only [run_collect_children]
    refine List.pairwise_append.mpr ⟨hP (pre ++ [i]), hQ pre (i + 1), ?_⟩
    intro a ha b hb
    obtain ⟨qa, hqa⟩ := run_collect_extends.1 c (pre ++ [i]) a ha
    obtain ⟨j, qb, hij, hqb⟩ := run_collect_extends.2 cs pre (i + 1) b hb
    have hfix : (pre ++ [i]) ++ qa = pre ++ i :: qa := by simp
    rw [hqa, hqb, hfix]
    exact preLt_index_lt pre qa qb (by omega)

theorem run_collect_mem {γ ε ρ : Type} :
    (∀ t : Task γ ε ρ, ∀ pre q,
      ((pre ++ q) ∈ (run_collect t pre).map ENode.path) ↔ (execAt t q).isSome = true) ∧
    (∀ cs : Tasks γ ε ρ, ∀ pre i a q,
      ((pre ++ a :: q) ∈ (run_collect_children cs pre i).map ENode.path) ↔
        (i ≤ a ∧ ∃ c, cs.get? (a - i) = some c ∧ (execAt c q).isSome = true)) := by
  refine task_ind ?_ ?_ ?_
  · intro ti ex cx cs hQ pre q
    have hch : ∀ x, x ∈ (run_collect_children cs pre 0).map ENode.path →
        ∃ j q', x = pre ++ j :: q' := by
      intro x hx
      obtain ⟨n, hn, rfl⟩ := List.mem_map.mp hx
      obtain ⟨j, q', _, hp⟩ := run_collect_extends.2 cs pre 0 n hn
      exact ⟨j, q', hp⟩
    cases q with
    | nil =>
      have hnotch : pre ++ ([] : List Nat) ∉ (run_collect_children cs pre 0).map ENode.path := by
        intro hx
        obtain ⟨j, q', hx'⟩ := hch _ hx
        simp at hx'
      cases ex with
      | some f =>
        simp only [run_collect, List.map_append, List.mem_append]
        simp only [execAt_nil, Option.isSome_some, iff_true]
        left
        simp
      | none =>
        simp only [run_collect, List.nil_append, execAt_nil, Option.isSome_none]
        constructor
        · intro h; exact absurd h hnotch
        · intro h; exact absurd h (by simp)
    | cons a q' =>
      have hhead : ∀ f, pre ++ a :: q' ∈ ([⟨pre, ti, f⟩] : List (ENode γ ε ρ)).map ENode.path → False := by
        intro f h
        simp at h
      have hQ0 := hQ pre 0 a q'
      have hrhs : execAt (Task.mk ti ex cx cs) (a :: q') =
          (match cs.get? a with
            | some c => execAt c q'
            | none => none) := by
        rw [execAt_cons]
        rfl
      cases ex with
      | some f =>
        simp only [run_collect, List.map_append, List.mem_append]
        rw [hrhs]
        constructor
        · intro h
          rcases h with h | h
          · exact absurd h (hhead f)
          · obtain ⟨_, c, hc, he⟩ := hQ0.mp h
            simp only [Nat.sub_zero] at hc
            rw [hc]
            exact he
        · intro h
          right
          cases hc : cs.get? a with
          | none => rw [hc] at h; simp at h
          | some c =>
            rw [hc] at h
            exact hQ0.mpr ⟨Nat.zero_le a, c, by simpa using hc, h⟩
      | none =>
        simp only [run_collect, List.nil_append]
        rw [hrhs]
        constructor
        · intro h
          obtain ⟨_, c, hc, he⟩ := hQ0.mp h
          simp only [Nat.sub_zero] at hc
          rw [hc]
          exact he
        · intro h
          cases hc : cs.get? a with
          | none => rw [hc] at h; simp at h
          | some c =>
            rw [hc] at h
            exact hQ0.mpr ⟨Nat.zero_le a, c, by simpa using hc, h⟩
  · intro pre i a q
    simp [run_collect_children, Tasks.get?]
  · intro c cs hP hQ pre i a q
    simp only [run_collect_children, List.map_append, List.mem_append]
    have hfirst : (pre ++ a :: q ∈ (run_collect c (pre ++ [i])).map ENode.path) ↔
        (a = i ∧ (execAt c q).isSome = true) := by
      constructor
      · intro h
        obtain ⟨n, hn, hp⟩ := List.mem_map.mp h
        obtain ⟨q', hq'⟩ := run_collect_extends.1 c (pre ++ [i]) n hn
        rw [hq', List.append_assoc] at hp
        have hcons : i :: q' = a :: q := by
          have := hp
          simpa using this
        have hai : a = i := by
          injection hcons with h1 h2
          exact h1.symm
        have hqq : q = q' := by
          injection hcons with h1 h2
          exact h2.symm
        subst hai
        subst hqq
        refine ⟨rfl, (hP (pre ++ [a]) q).mp ?_⟩
        have hfix : (pre ++ [a]) ++ q = pre ++ a :: q := by simp
        rw [hfix]
        exact h
      · rintro ⟨rfl, he⟩
        have h3 := (hP (pre ++ [a]) q).mpr he
        have hfix : (pre ++ [a]) ++ q = pre ++ a :: q := by simp
        rwa [hfix] at h3
    constructor
    · intro h
      rcases h with h | h
      · obtain ⟨rfl, he⟩ := hfirst.mp h
        exact ⟨le_refl a, c, by simp [Tasks.get?], he⟩
      · obtain ⟨hle, c', hc', he⟩ := (hQ pre (i + 1) a q).mp h
        refine ⟨by omega, c', ?_, he⟩
        have ha : a - i = (a - (i + 1)) + 1 := by omega
        rw [ha]
        simpa [Tasks.get?] using hc'
    · rintro ⟨hle, c', hc', he⟩
      by_cases hai : a = i
      · subst hai
        simp only [Nat.sub_self, Tasks.get?] at hc'
        obtain rfl : c = c' := by injection hc'
        exact Or.inl (hfirst.mpr ⟨rfl, he⟩)
      · right
        refine (hQ pre (i + 1) a q).mpr ⟨by omega, c', ?_, he⟩
        have ha : a - i = (a - (i + 1)) + 1 := by omega
        rw [ha] at hc'
        simpa [Tasks.get?] using hc'

-- endregion

-- region Run-loop lemmas

theorem update_stage_false_ne {ε ρ : Type} {p q : List Nat} (s : Stage ε ρ)
    (st : SMap ε ρ) (h : q ≠ p) : (update_stage false p s st).1 q = st q := by
  rw [update_stage_fst]
  simp [h]

theorem update_stage_anc {ε ρ : Type} {p q : List Nat} (s : Stage ε ρ)
    (st : SMap ε ρ) (hq : q ∈ get_ancestors p) :
    (update_stage true p s st).1 q = some (clear_message s) := by
  rw [update_stage_fst]
  simp [hq]

theorem update_stage_true_other {ε ρ : Type} {p q : List Nat} (s : Stage ε ρ)
    (st : SMap ε ρ) (hq : q ∉ get_ancestors p) (hp : q ≠ p) :
    (update_stage true p s st).1 q = st q := by
  rw [update_stage_fst]
  simp [hq, hp]

theorem clear_message_name {ε ρ : Type} (s : Stage ε ρ) :
    (clear_message s).name = s.name := rfl

theorem runLoop_ctx {γ ε ρ : Type} [ToString ε] (obs : Bool) (t : Task γ ε ρ) :
    ∀ (ns : List (ENode γ ε ρ)) (res : ρ) (st : SMap ε ρ) (c : Call γ ε ρ),
      c ∈ (runLoop obs t ns res st).calls → c.ctx = find_context t c.path := by
  intro ns
  induction ns with
  | nil => intro res st c hc; simp [runLoop] at hc
  | cons n ns ih =>
    intro res st c hc
    cases hx : n.exec (find_context t n.path) res with
    | ok r =>
      simp only [runLoop, hx] at hc
      rcases List.mem_cons.mp hc with h | h
      · rw [h]
      · exact ih r _ c h
    | error e =>
      simp only [runLoop, hx] at hc
      rcases List.mem_cons.mp hc with h | h
      · rw [h]
      · simp at h

theorem runLoop_ok {γ ε ρ : Type} [ToString ε] (obs : Bool) (t : Task γ ε ρ) :
    ∀ (ns : List (ENode γ ε ρ)) (res : ρ) (st : SMap ε ρ),
      (∀ n ∈ ns, execOk n.exec) →
      ((runLoop obs t ns res st).calls.map Call.path = ns.map ENode.path
      ∧ List.Chain' (fun a b => a.result = Except.ok b.prev)
          (runLoop obs t ns res st).calls
      ∧ (∀ c, (runLoop obs t ns res st).calls.head? = some c → c.prev = res)
      ∧ (∀ c, (runLoop obs t ns res st).calls.getLast? = some c →
          (runLoop obs t ns res st).result = c.result)
      ∧ ((runLoop obs t ns res st).calls = [] →
          (runLoop obs t ns res st).result = Except.ok res)
      ∧ (∃ v, (runLoop obs t ns res st).result = Except.ok v)) := by
  intro ns
  induction ns with
  | nil =>
    intro res st _
    refine ⟨rfl, ?_, ?_, ?_, fun _ => rfl, ⟨res, rfl⟩⟩
    · simp [runLoop]
    · intro c hc; simp [runLoop] at hc
    · intro c hc; simp [runLoop] at hc
  | cons n ns ih =>
    intro res st H
    obtain ⟨r, hr⟩ := H n (List.mem_cons_self n ns) (find_context t n.path) res
    have Hns : ∀ m ∈ ns, execOk m.exec := fun m hm => H m (List.mem_cons_of_mem n hm)
    cases hx : n.exec (find_context t n.path) res with
    | error e => rw [hr] at hx; exact absurd hx (by simp)
    | ok r' =>
      obtain rfl : r = r' := by rw [hr] at hx; injection hx
      obtain ⟨ih1, ih2, ih3, ih4, ih5, ih6⟩ :=
        ih r (update_stage obs n.path
          (Stage.success (some ("Task [" ++ n.title ++ "] succeeded.")) none)
          (update_stage obs n.path
            (Stage.running ("Running task [" ++ n.title ++ "]...")) st).1).1 Hns
      refine ⟨?_, ?_, ?_, ?_, ?_, ?_⟩
      · simp only [runLoop, hx, List.map_cons]
        rw [ih1]
      · simp only [runLoop, hx]
        refine List.chain'_cons'.mpr ⟨?_, ih2⟩
        intro b hb
        have hbp := ih3 b hb
        show Except.ok r = Except.ok b.prev
        rw [hbp]
      · simp only [runLoop, hx]
        intro c hc
        simp only [List.head?_cons, Option.some.injEq] at hc
        rw [← hc]
      · simp only [runLoop, hx]
        intro c hc
        cases hcalls : (runLoop obs t ns r _).calls with
        | nil =>
          rw [hcalls] at hc
          simp only [List.getLast?_singleton, Option.some.injEq] at hc
          rw [← hc]
          exact ih5 hcalls
        | cons b l =>
          rw [hcalls, List.getLast?_cons_cons] at hc
          rw [← hcalls] at hc
          exact ih4 c hc
      · simp only [runLoop, hx]
        intro hc
        exact absurd hc (by simp)
      · simp only [runLoop, hx]
        exact ih6

theorem runLoop_frame_false {γ ε ρ : Type} [ToString ε] (t : Task γ ε ρ) :
    ∀ (ns : List (ENode γ ε ρ)) (res : ρ) (st : SMap ε ρ) (q : List Nat),
      q ∉ ns.map ENode.path → (runLoop false t ns res st).stages q = st q := by
  intro ns
  induction ns with
  | nil => intro res st q _; rfl
  | cons n ns ih =>
    intro res st q hq
    simp only [List.map_cons, List.mem_cons, not_or] at hq
    obtain ⟨hq1, hq2⟩ := hq
    cases hx : n.exec (find_context t n.path) res with
    | ok r =>
      simp only [runLoop, hx]
      rw [ih r _ q hq2, update_stage_false_ne _ _ hq1, update_stage_false_ne _ _ hq1]
    | error e =>
      simp only [runLoop, hx]
      rw [update_stage_false_ne _ _ hq1, update_stage_false_ne _ _ hq1]

theorem runLoop_success_names {γ ε ρ : Type} [ToString ε] (obs : Bool) (t : Task γ ε ρ) :
    ∀ (ns : List (ENode γ ε ρ)) (res : ρ) (st : SMap ε ρ) (q : List Nat),
      (∀ n ∈ ns, execOk n.exec) →
      (((st q).map Stage.name = some "success") ∨ q ∈ ns.map ENode.path) →
      (((runLoop obs t ns res st).stages q).map Stage.name = some "success") := by
  intro ns
  induction ns with
  | nil =>
    intro res st q _ h
    rcases h with h | h
    · exact h
    · simp at h
  | cons n ns ih =>
    intro res st q H h
    obtain ⟨r, hr⟩ := H n (List.mem_cons_self n ns) (find_context t n.path) res
    have Hns : ∀ m ∈ ns, execOk m.exec := fun m hm => H m (List.mem_cons_of_mem n hm)
    cases hx : n.exec (find_context t n.path) res with
    | error e => rw [hr] at hx; exact absurd hx (by simp)
    | ok r' =>
      simp only [runLoop, hx]
      apply ih r' _ q Hns
      have hself : (update_stage obs n.path
          (Stage.success (some ("Task [" ++ n.title ++ "] succeeded.")) none)
          (update_stage obs n.path
            (Stage.running ("Running task [" ++ n.title ++ "]...")) st).1).1 n.path =
          some (Stage.success (some ("Task [" ++ n.title ++ "] succeeded.")) none) :=
        update_stage_self _ _ _ _
      rcases h with h | h
      · left
        cases obs with
        | false =>
          by_cases hq : q = n.path
          · rw [hq, hself]
            rfl
          · rw [update_stage_false_ne _ _ hq, update_stage_false_ne _ _ hq]
            exact h
        | true =>
          by_cases hanc : q ∈ get_ancestors n.path
          · rw [update_stage_anc _ _ hanc]
            rfl
          · by_cases hq : q = n.path
            · rw [hq, hself]
              rfl
            · rw [update_stage_true_other _ _ hanc hq,
                update_stage_true_other _ _ hanc hq]
              exact h
      · simp only [List.map_cons, List.mem_cons] at h
        rcases h with h | h
        · left
          rw [h, hself]
          rfl
        · right
          exact h

theorem runLoop_stages_ok {γ ε ρ : Type} [ToString ε] (t : Task γ ε ρ) :
    ∀ (ns : List (ENode γ ε ρ)) (res : ρ) (st : SMap ε ρ),
      (∀ n ∈ ns, execOk n.exec) →
      List.Pairwise (fun a b => a.path ≠ b.path) ns →
      ∀ n ∈ ns, (runLoop false t ns res st).stages n.path =
        some (Stage.success (some ("Task [" ++ n.title ++ "] succeeded.")) none) := by
  intro ns
  induction ns with
  | nil => intro res st _ _ n hn; simp at hn
  | cons m ns ih =>
    intro res st H hpw n hn
    obtain ⟨r, hr⟩ := H m (List.mem_cons_self m ns) (find_context t m.path) res
    have Hns : ∀ x ∈ ns, execOk x.exec := fun x hx => H x (List.mem_cons_of_mem m hx)
    have hpw' := (List.pairwise_cons.mp hpw)
    cases hx : m.exec (find_context t m.path) res with
    | error e => rw [hr] at hx; exact absurd hx (by simp)
    | ok r' =>
      simp only [runLoop, hx]
      rcases List.mem_cons.mp hn with h | h
      · subst h
        have hnot : n.path ∉ ns.map ENode.path := by
          intro hmem
          obtain ⟨b, hb, hbp⟩ := List.mem_map.mp hmem
          exact hpw'.1 b hb hbp.symm
        rw [runLoop_frame_false t ns r' _ n.path hnot]
        exact update_stage_self _ _ _ _
      · exact ih r' _ Hns hpw'.2 n h

theorem runLoop_trans_shape {γ ε ρ : Type} [ToString ε] (obs : Bool) (t : Task γ ε ρ) :
    ∀ (ns : List (ENode γ ε ρ)) (res : ρ) (st : SMap ε ρ) (p : List Nat) (s : Stage ε ρ),
      (p, s) ∈ (runLoop obs t ns res st).transitions →
      (s.data = none ∧ s.is_completed = false) := by
  intro ns
  induction ns with
  | nil => intro res st p s h; simp [runLoop] at h
  | cons n ns ih =>
    intro res st p s h
    cases hx : n.exec (find_context t n.path) res with
    | ok r =>
      simp only [runLoop, hx] at h
      rcases List.mem_cons.mp h with h1 | h1
      · obtain ⟨rfl, rfl⟩ : p = n.path ∧ s = Stage.running _ := by
          constructor <;> injection h1 <;> simp_all
        exact ⟨rfl, rfl⟩
      · rcases List.mem_cons.mp h1 with h2 | h2
        · obtain ⟨rfl, rfl⟩ : p = n.path ∧ s = Stage.success _ none := by
            constructor <;> injection h2 <;> simp_all
          exact ⟨rfl, rfl⟩
        · exact ih r _ p s h2
    | error e =>
      simp only [runLoop, hx] at h
      rcases List.mem_cons.mp h with h1 | h1
      · obtain ⟨rfl, rfl⟩ : p = n.path ∧ s = Stage.running _ := by
          constructor <;> injection h1 <;> simp_all
        exact ⟨rfl, rfl⟩
      · rcases List.mem_cons.mp h1 with h2 | h2
        · obtain ⟨rfl, rfl⟩ : p = n.path ∧ s = Stage.failed _ (some e) := by
            constructor <;> injection h2 <;> simp_all
          exact ⟨rfl, rfl⟩
        · simp at h2

theorem runLoop_success_trans {γ ε ρ : Type} [ToString ε] (obs : Bool) (t : Task γ ε ρ) :
    ∀ (ns : List (ENode γ ε ρ)) (res : ρ) (st : SMap ε ρ),
      (∀ n ∈ ns, execOk n.exec) → ∀ n ∈ ns,
      (n.path, Stage.success (some ("Task [" ++ n.title ++ "] succeeded.")) none)
        ∈ (runLoop obs t ns res st).transitions := by
  intro ns
  induction ns with
  | nil => intro res st _ n hn; simp at hn
  | cons m ns ih =>
    intro res st H n hn
    obtain ⟨r, hr⟩ := H m (List.mem_cons_self m ns) (find_context t m.path) res
    have Hns : ∀ x ∈ ns, execOk x.exec := fun x hx => H x (List.mem_cons_of_mem m hx)
    cases hx : m.exec (find_context t m.path) res with
    | error e => rw [hr] at hx; exact absurd hx (by simp)
    | ok r' =>
      simp only [runLoop, hx]
      rcases List.mem_cons.mp hn with h | h
      · subst h
        exact List.mem_cons_of_mem _ (List.mem_cons_self _ _)
      · exact List.mem_cons_of_mem _ (List.mem_cons_of_mem _ (ih r' _ Hns n h))

theorem runLoop_fail {γ ε ρ : Type} [ToString ε] (obs : Bool) (t : Task γ ε ρ) :
    ∀ (l1 : List (ENode γ ε ρ)) (nk : ENode γ ε ρ) (l2 : List (ENode γ ε ρ))
      (res : ρ) (st : SMap ε ρ),
      (∀ n ∈ l1, execOk n.exec) →
      (∀ c r, ∃ e, nk.exec c r = Except.error e) →
      ∃ e, (runLoop obs t (l1 ++ nk :: l2) res st).result = Except.error e
        ∧ (runLoop obs t (l1 ++ nk :: l2) res st).calls.map Call.path
            = l1.map ENode.path ++ [nk.path]
        ∧ (nk.path, Stage.failed (some ("Task [" ++ nk.title ++ "] failed.")) (some e))
            ∈ (runLoop obs t (l1 ++ nk :: l2) res st).transitions
        ∧ (runLoop obs t (l1 ++ nk :: l2) res st).stages nk.path
            = some (Stage.failed (some ("Task [" ++ nk.title ++ "] failed.")) (some e)) := by
  intro l1
  induction l1 with
  | nil =>
    intro nk l2 res st _ Herr
    obtain ⟨e, he⟩ := Herr (find_context t nk.path) res
    refine ⟨e, ?_, ?_, ?_, ?_⟩
    · simp only [List.nil_append, runLoop, he]
    · simp only [List.nil_append, runLoop, he, List.map_cons, List.map_nil]
    · simp only [List.nil_append, runLoop, he]
      exact List.mem_cons_of_mem _ (List.mem_cons_self _ _)
    · simp only [List.nil_append, runLoop, he]
      exact update_stage_self _ _ _ _
  | cons n l1 ih =>
    intro nk l2 res st H Herr
    obtain ⟨r, hr⟩ := H n (List.mem_cons_self n l1) (find_context t n.path) res
    have Hl1 : ∀ x ∈ l1, execOk x.exec := fun x hx => H x (List.mem_cons_of_mem n hx)
    cases hx : n.exec (find_context t n.path) res with
    | error e => rw [hr] at hx; exact absurd hx (by simp)
    | ok r' =>
      obtain ⟨e, h1, h2, h3, h4⟩ := ih nk l2 r'
        (update_stage obs n.path
          (Stage.success (some ("Task [" ++ n.title ++ "] succeeded.")) none)
          (update_stage obs n.path
            (Stage.running ("Running task [" ++ n.title ++ "]...")) st).1).1 Hl1 Herr
      refine ⟨e, ?_, ?_, ?_, ?_⟩
      · simp only [List.cons_append, runLoop, hx]
        exact h1
      · simp only [List.cons_append, runLoop, hx, List.map_cons]
        exact congrArg (fun x => n.path :: x) h2
      · simp only [List.cons_append, runLoop, hx]
        exact List.mem_cons_of_mem _ (List.mem_cons_of_mem _ h3)
      · simp only [List.cons_append, runLoop, hx]
        exact h4

theorem runLoop_events_false {γ ε ρ : Type} [ToString ε] (t : Task γ ε ρ) :
    ∀ (ns : List (ENode γ ε ρ)) (res : ρ) (st : SMap ε ρ),
      (runLoop false t ns res st).events = [] := by
  intro ns
  induction ns with
  | nil => intro res st; rfl
  | cons n ns ih =>
    intro res st
    cases hx : n.exec (find_context t n.path) res with
    | ok r =>
      simp only [runLoop, hx]
      rw [update_stage_snd, update_stage_snd, ih r _]
      rfl
    | error e =>
      simp only [runLoop, hx]
      rw [update_stage_snd, update_stage_snd]
      rfl

theorem runLoop_events_true {γ ε ρ : Type} [ToString ε] (t : Task γ ε ρ) :
    ∀ (ns : List (ENode γ ε ρ)) (res : ρ) (st : SMap ε ρ),
      (runLoop true t ns res st).events =
        ((runLoop true t ns res st).transitions.map
          (fun pr => (get_ancestors pr.1).map (fun a => (clear_message pr.2, a))
            ++ [(pr.2, pr.1)])).join := by
  intro ns
  induction ns with
  | nil => intro res st; rfl
  | cons n ns ih =>
    intro res st
    cases hx : n.exec (find_context t n.path) res with
    | ok r =>
      simp only [runLoop, hx]
      rw [update_stage_snd, update_stage_snd, ih r _]
      simp [List.join]
    | error e =>
      simp only [runLoop, hx]
      rw [update_stage_snd, update_stage_snd]
      simp [List.join]

-- endregion

-- region Run lemmas

theorem update_stage_nil_other {ε ρ : Type} (obs : Bool) (s : Stage ε ρ)
    (st : SMap ε ρ) {q : List Nat} (h : q ≠ []) :
    (update_stage obs [] s st).1 q = st q := by
  rw [update_stage_fst]
  simp [get_ancestors_nil, h]

theorem run_sync_eq_ok {γ ε ρ : Type} [ToString ε] (obs : Bool) (t : Task γ ε ρ)
    (st0 : SMap ε ρ) (r0 : ρ) {v : ρ}
    (hv : (runLoop obs t (run_collect t []) r0 st0).result = Except.ok v) :
    run_sync obs t st0 r0 =
      ⟨(update_stage obs []
          (Stage.success_completed (some ("Task [" ++ t.title ++ "] completed.")) (some v))
          (runLoop obs t (run_collect t []) r0 st0).stages).1,
       (runLoop obs t (run_collect t []) r0 st0).transitions ++
         [([], Stage.success_completed (some ("Task [" ++ t.title ++ "] completed.")) (some v))],
       (runLoop obs t (run_collect t []) r0 st0).events ++
         (update_stage obs []
           (Stage.success_completed (some ("Task [" ++ t.title ++ "] completed.")) (some v))
           (runLoop obs t (run_collect t []) r0 st0).stages).2,
       (runLoop obs t (run_collect t []) r0 st0).calls,
       Except.ok v⟩ := by
  simp only [run_sync, hv]

theorem run_sync_eq_error {γ ε ρ : Type} [ToString ε] (obs : Bool) (t : Task γ ε ρ)
    (st0 : SMap ε ρ) (r0 : ρ) {e : ε}
    (hv : (runLoop obs t (run_collect t []) r0 st0).result = Except.error e) :
    run_sync obs t st0 r0 =
      ⟨(update_stage obs []
          (Stage.failed_completed (some ("Task [" ++ t.title ++ "] failed.")) (some e))
          (runLoop obs t (run_collect t []) r0 st0).stages).1,
       (runLoop obs t (run_collect t []) r0 st0).transitions ++
         [([], Stage.failed_completed (some ("Task [" ++ t.title ++ "] failed.")) (some e))],
       (runLoop obs t (run_collect t []) r0 st0).events ++
         (update_stage obs []
           (Stage.failed_completed (some ("Task [" ++ t.title ++ "] failed.")) (some e))
           (runLoop obs t (run_collect t []) r0 st0).stages).2,
       (runLoop obs t (run_collect t []) r0 st0).calls,
       Except.error e⟩ := by
  simp only [run_sync, hv]

theorem run_sync_calls {γ ε ρ : Type} [ToString ε] (obs : Bool) (t : Task γ ε ρ)
    (st0 : SMap ε ρ) (r0 : ρ) :
    (run_sync obs t st0 r0).calls = (runLoop obs t (run_collect t []) r0 st0).calls := by
  cases hv : (runLoop obs t (run_collect t []) r0 st0).result with
  | ok v => rw [run_sync_eq_ok obs t st0 r0 hv]
  | error e => rw [run_sync_eq_error obs t st0 r0 hv]

theorem run_sync_result {γ ε ρ : Type} [ToString ε] (obs : Bool) (t : Task γ ε ρ)
    (st0 : SMap ε ρ) (r0 : ρ) :
    (run_sync obs t st0 r0).result = (runLoop obs t (run_collect t []) r0 st0).result := by
  cases hv : (runLoop obs t (run_collect t []) r0 st0).result with
  | ok v => rw [run_sync_eq_ok obs t st0 r0 hv]
  | error e => rw [run_sync_eq_error obs t st0 r0 hv]

theorem sub_isSome_of_execAt {γ ε ρ : Type} {t : Task γ ε ρ} {p : List Nat}
    (h : (execAt t p).isSome = true) : (sub t p).isSome = true := by
  unfold execAt at h
  cases hs : sub t p with
  | none => rw [hs] at h; simp at h
  | some c => simp

-- endregion

-- region Serialization lemmas

theorem to_dicts_get {γ ε ρ : Type} (ids : List Nat → String) (st : SMap ε ρ) :
    ∀ (cs : Tasks γ ε ρ) (p : List Nat) (j i : Nat),
      (Tasks.to_dicts ids st cs p i).get? j =
        (cs.get? j).map (fun c => Task.to_dict ids st c (p ++ [i + j])) := by
  intro cs
  induction cs using tasks_ind with
  | hnil => intro p j i; simp [Tasks.to_dicts, Tasks.get?, TaskDicts.get?]
  | hcons c cs ih =>
    intro p j i
    cases j with
    | zero => simp [Tasks.to_dicts, Tasks.get?, TaskDicts.get?]
    | succ j =>
      have harith : i + (j + 1) = (i + 1) + j := by omega
      simp only [Tasks.to_dicts, Tasks.get?, TaskDicts.get?, ih p j (i + 1), harith]

theorem stageAt_to_dict {γ ε ρ : Type} (ids : List Nat → String) (st : SMap ε ρ) :
    ∀ (p : List Nat) (t : Task γ ε ρ) (pre : List Nat), (sub t p).isSome = true →
      TaskDict.stageAt (Task.to_dict ids st t pre) p =
        some ((st (pre ++ p)).map Stage.to_dict) := by
  intro p
  induction p with
  | nil =>
    intro t pre _
    cases t with
    | mk ti ex cx cs => simp [Task.to_dict, TaskDict.stageAt]
  | cons i p ih =>
    intro t pre hsub
    cases t with
    | mk ti ex cx cs =>
      cases hc : cs.get? i with
      | none =>
        exfalso
        simp only [sub, Task.children, hc] at hsub
        exact Bool.false_ne_true hsub
      | some c =>
        have hsub' : (sub c p).isSome = true := by
          simpa [sub, Task.children, hc] using hsub
        have hnil : cs.isNil = false := by
          cases cs with
          | nil => simp [Tasks.get?] at hc
          | cons _ _ => rfl
        have harr : (pre ++ [i]) ++ p = pre ++ i :: p := by simp
        simp only [Task.to_dict, hnil, Bool.false_eq_true, if_false, TaskDict.stageAt,
          to_dicts_get, hc, Option.map_some', Nat.zero_add]
        rw [ih c (pre ++ [i]) hsub', harr]

theorem to_dict_stagesNone {γ ε ρ : Type} (ids : List Nat → String) :
    (∀ t : Task γ ε ρ, ∀ pre,
      (Task.to_dict ids (fun _ => none) t pre).stagesNone = true) ∧
    (∀ cs : Tasks γ ε ρ, ∀ pre i,
      (Tasks.to_dicts ids (fun _ => none) cs pre i).stagesNone = true) := by
  refine task_ind ?_ ?_ ?_
  · intro ti ex cx cs hQ pre
    cases cs with
    | nil => simp [Task.to_dict, Tasks.isNil, TaskDict.stagesNone]
    | cons c cs' =>
      simp only [Task.to_dict, Tasks.isNil, Bool.false_eq_true, if_false,
        TaskDict.stagesNone, Option.isNone_none, Bool.true_and, Option.map_none]
      exact hQ pre 0
  · intro pre i; rfl
  · intro c cs hP hQ pre i
    simp only [Tasks.to_dicts, TaskDicts.stagesNone, hP (pre ++ [i]), hQ pre (i + 1),
      Bool.and_self]

-- endregion

-- region Observer-event lemmas at run level

theorem run_sync_events_false {γ ε ρ : Type} [ToString ε] (t : Task γ ε ρ)
    (st0 : SMap ε ρ) (r0 : ρ) : (run_sync false t st0 r0).events = [] := by
  cases hv : (runLoop false t (run_collect t []) r0 st0).result with
  | ok v =>
    rw [run_sync_eq_ok false t st0 r0 hv]
    show (runLoop false t (run_collect t []) r0 st0).events ++ _ = []
    rw [runLoop_events_false, update_stage_snd]
    rfl
  | error e =>
    rw [run_sync_eq_error false t st0 r0 hv]
    show (runLoop false t (run_collect t []) r0 st0).events ++ _ = []
    rw [runLoop_events_false, update_stage_snd]
    rfl

theorem run_sync_events_true {γ ε ρ : Type} [ToString ε] (t : Task γ ε ρ)
    (st0 : SMap ε ρ) (r0 : ρ) :
    (run_sync true t st0 r0).events =
      ((run_sync true t st0 r0).transitions.map
        (fun pr => (get_ancestors pr.1).map (fun a => (clear_message pr.2, a))
          ++ [(pr.2, pr.1)])).join := by
  cases hv : (runLoop true t (run_collect t []) r0 st0).result with
  | ok v =>
    rw [run_sync_eq_ok true t st0 r0 hv]
    show (runLoop true t (run_collect t []) r0 st0).events ++ _ =
      (((runLoop true t (run_collect t []) r0 st0).transitions ++ _).map _).join
    rw [runLoop_events_true, update_stage_snd]
    simp [get_ancestors_nil]
  | error e =>
    rw [run_sync_eq_error true t st0 r0 hv]
    show (runLoop true t (run_collect t []) r0 st0).events ++ _ =
      (((runLoop true t (run_collect t []) r0 st0).transitions ++ _).map _).join
    rw [runLoop_events_true, update_stage_snd]
    simp [get_ancestors_nil]

-- endregion

-- region Builder lemmas

theorem run_collect_singles {γ ε ρ : Type} :
    ∀ (L : List (Task γ ε ρ)) (pre : List Nat) (i : Nat),
      (∀ c ∈ L, c.children = Tasks.nil ∧ (c.executable).isSome = true) →
      (run_collect_children (Tasks.ofList L) pre i).map ENode.path =
        (List.range L.length).map (fun j => pre ++ [i + j]) := by
  intro L
  induction L with
  | nil => intro pre i _; simp [Tasks.ofList, run_collect_children]
  | cons c L ih =>
    intro pre i h
    have hL : ∀ x ∈ L, x.children = Tasks.nil ∧ (x.executable).isSome = true :=
      fun x hx => h x (List.mem_cons_of_mem c hx)
    obtain ⟨hch, hex⟩ := h c (List.mem_cons_self c L)
    obtain ⟨f, hf⟩ := Option.isSome_iff_exists.mp hex
    cases c with
    | mk ti ex cx cs =>
      obtain rfl : cs = Tasks.nil := hch
      obtain rfl : ex = some f := hf
      simp only [Tasks.ofList, run_collect_children, run_collect,
        List.append_nil, List.map_cons, List.map_append,
        List.length_cons, ih pre (i + 1) hL]
      rw [List.range_succ_eq_map]
      simp only [List.map_cons, List.map_map, Nat.add_zero, List.map_nil,
        List.nil_append, List.cons_append, List.cons.injEq, true_and]
      apply List.map_congr_left
      intro j _
      simp only [Function.comp_apply]
      have harith : i + 1 + j = i + Nat.succ j := by omega
      rw [harith]

-- endregion

-- region Concrete trees used by witnesses

def fC1a : Option Nat → Nat → Except Nat Nat := fun _ r => Except.ok (r + 1)

def fC1b : Option Nat → Nat → Except Nat Nat := fun _ r => Except.ok (r * 2)

def tC1w : Task Nat Nat Nat :=
  Task.mk "R" none none
    (Tasks.cons (Task.mk "A" (some fC1a) none Tasks.nil)
      (Tasks.cons (Task.mk "B" (some fC1b) none Tasks.nil) Tasks.nil))

theorem tC1w_ok : ∀ n ∈ run_collect tC1w [], execOk n.exec := by
  intro n hn
  have hcol : run_collect tC1w [] = [⟨[0], "A", fC1a⟩, ⟨[1], "B", fC1b⟩] := rfl
  rw [hcol] at hn
  simp only [List.mem_cons, List.not_mem_nil, or_false] at hn
  rcases hn with rfl | rfl
  · exact fun c r => ⟨r + 1, rfl⟩
  · exact fun c r => ⟨r * 2, rfl⟩

def fC6 : Option Nat → Nat → Except Nat Nat := fun _ r => Except.ok (r + 1)

def tC6w : Task Nat Nat Nat :=
  Task.mk "R" none (some 7)
    (Tasks.cons (Task.mk "A" (some fC6) none Tasks.nil) Tasks.nil)

def fC10 : Option Nat → Nat → Except Nat Nat := fun _ r => Except.ok r

def tC10w : Task Nat Nat Nat :=
  Task.mk "R" none none
    (Tasks.cons (Task.mk "A" (some fC10) none Tasks.nil)
      (Tasks.cons (Task.mk "B" none none Tasks.nil) Tasks.nil))

-- endregion

-- region Claims

/-- Claim C1: for every tree whose executables never raise, `run_sync`
performs one call per executable-bearing node, in the collection order,
which is strictly increasing in the depth-first pre-order `preLt` on paths
and contains exactly the executable-bearing paths (so each executable is
invoked exactly once, a node before its children and children in declared
order); the value returned by call i is passed unchanged as the previous
result of call i+1, the first call receives the initial `last_result`, and
the run returns the result of the last call (the initial value when there
are no calls). -/
theorem claim_C1 {γ ε ρ : Type} [ToString ε] (obs : Bool) (t : Task γ ε ρ)
    (st0 : SMap ε ρ) (r0 : ρ)
    (Hok : ∀ n ∈ run_collect t [], execOk n.exec) :
    ((run_sync obs t st0 r0).calls.map Call.path = (run_collect t []).map ENode.path)
    ∧ List.Pairwise (fun p q => preLt p q = true) ((run_collect t []).map ENode.path)
    ∧ (∀ p : List Nat, p ∈ (run_collect t []).map ENode.path ↔ (execAt t p).isSome = true)
    ∧ List.Chain' (fun a b => a.result = Except.ok b.prev) (run_sync obs t st0 r0).calls
    ∧ (∀ c, (run_sync obs t st0 r0).calls.head? = some c → c.prev = r0)
    ∧ (∀ c, (run_sync obs t st0 r0).calls.getLast? = some c →
        (run_sync obs t st0 r0).result = c.result)
    ∧ ((run_sync obs t st0 r0).calls = [] →
        (run_sync obs t st0 r0).result = Except.ok r0) := by
  obtain ⟨h1, h2, h3, h4, h5, -⟩ := runLoop_ok obs t (run_collect t []) r0 st0 Hok
  rw [run_sync_calls, run_sync_result]
  refine ⟨h1, ?_, ?_, h2, h3, h4, h5⟩
  · rw [List.pairwise_map]
    exact run_collect_pairwise.1 t []
  · intro p
    have h := run_collect_mem.1 t [] p
    simpa using h

/-- Claim C1 witness: on the two-executable tree `tC1w` the calls of the
run are exactly the collected nodes in order. -/
theorem claim_C1_witness :
    (run_sync false tC1w (fun _ => none) 0).calls.map Call.path =
      (run_collect tC1w []).map ENode.path :=
  (claim_C1 false tC1w (fun _ => none) 0 tC1w_ok).1

/-- Claim C5: with an observer, every stage transition (p, s) of the run
yields one observer invocation per ancestor of p, root-first, each with a
copy of s whose message is cleared (name, data and error preserved),
followed by one invocation for p itself with the original s — the event
trace is exactly the concatenation of these per-transition blocks; without
an observer no invocation happens. -/
theorem claim_C5 {γ ε ρ : Type} [ToString ε] (t : Task γ ε ρ)
    (st0 : SMap ε ρ) (r0 : ρ) :
    ((run_sync true t st0 r0).events =
      ((run_sync true t st0 r0).transitions.map
        (fun pr => (get_ancestors pr.1).map (fun a => (clear_message pr.2, a))
          ++ [(pr.2, pr.1)])).join)
    ∧ ((run_sync false t st0 r0).events = [])
    ∧ (∀ s : Stage ε ρ, clear_message s =
        { name := s.name, message := none, data := s.data, error := s.error })
    ∧ (∀ p : List Nat, get_ancestors p = (List.range p.length).map (fun k => p.take k)) :=
  ⟨run_sync_events_true t st0 r0, run_sync_events_false t st0 r0,
   fun _ => rfl, fun p => get_ancestors_eq p⟩

/-- Claim C6: the context passed to every invoked executable is resolved
by `find_context`, which returns the first context set along the chain
node, parent, ..., root (the node's own context when set, else the nearest
ancestor's context, else none). -/
theorem claim_C6 {γ ε ρ : Type} [ToString ε] (obs : Bool) (t : Task γ ε ρ)
    (st0 : SMap ε ρ) (r0 : ρ) :
    (∀ c ∈ (run_sync obs t st0 r0).calls, c.ctx = find_context t c.path)
    ∧ (∀ p : List Nat, find_context t p =
        ((p :: (get_ancestors p).reverse).map (fun q => ctxAt t q)).findSome? id) := by
  constructor
  · intro c hc
    rw [run_sync_calls] at hc
    exact runLoop_ctx obs t _ r0 st0 c hc
  · exact find_context_eq t

/-- Claim C6 witness: in the run of `tC6w` the call at path [0] received
the root's context. -/
theorem claim_C6_witness :
    (Call.mk [0] (some 7) 10 (Except.ok 11) : Call Nat Nat Nat).ctx =
      find_context tC6w [0] :=
  (claim_C6 false tC6w (fun _ => none) 10).1 ⟨[0], some 7, 10, Except.ok 11⟩ (by decide)

/-- Claim C9: `get_ancestors` lists the proper ancestors of a node
root-first — the k-th entry is the length-k prefix of the path — with the
immediate parent last, and is empty exactly for the root. -/
theorem claim_C9 (p : List Nat) :
    get_ancestors p = (List.range p.length).map (fun k => p.take k)
    ∧ (p ≠ [] → (get_ancestors p).getLast? = some p.dropLast)
    ∧ (get_ancestors p = [] ↔ p = []) := by
  refine ⟨get_ancestors_eq p, fun h => get_ancestors_getLast h, ?_⟩
  rw [get_ancestors_eq]
  simp [List.map_eq_nil, List.range_eq_nil, List.length_eq_zero]

/-- Claim C9 witness: the ancestors of [1, 2] end with its parent [1]. -/
theorem claim_C9_witness :
    (get_ancestors [1, 2]).getLast? = some (List.dropLast [1, 2]) :=
  (claim_C9 [1, 2]).2.1 (by decide)

/-- Claim C10: ancestors' stored stages are overwritten exactly when an
observer is supplied: `update_stage` with an observer overwrites every
ancestor of the transitioned node with a message-cleared copy; without an
observer it writes only the transitioned node, a whole run leaves every
path other than the executed paths and the run root unchanged, and the
observer is never invoked. -/
theorem claim_C10 {γ ε ρ : Type} [ToString ε] (t : Task γ ε ρ)
    (st0 : SMap ε ρ) (r0 : ρ) :
    (∀ (p q : List Nat) (s : Stage ε ρ) (st : SMap ε ρ), q ∈ get_ancestors p →
        (update_stage true p s st).1 q = some (clear_message s))
    ∧ (∀ (p q : List Nat) (s : Stage ε ρ) (st : SMap ε ρ), q ≠ p →
        (update_stage false p s st).1 q = st q)
    ∧ (∀ q : List Nat, q ∉ (run_collect t []).map ENode.path → q ≠ [] →
        (run_sync false t st0 r0).stages q = st0 q)
    ∧ (run_sync false t st0 r0).events = [] := by
  refine ⟨fun p q s st hq => update_stage_anc s st hq,
    fun p q s st hq => update_stage_false_ne s st hq, ?_,
    run_sync_events_false t st0 r0⟩
  intro q hq hne
  cases hv : (runLoop false t (run_collect t []) r0 st0).result with
  | ok v =>
    rw [run_sync_eq_ok false t st0 r0 hv]
    show (update_stage false [] _ _).1 q = st0 q
    rw [update_stage_false_ne _ _ hne]
    exact runLoop_frame_false t _ r0 st0 q hq
  | error e =>
    rw [run_sync_eq_error false t st0 r0 hv]
    show (update_stage false [] _ _).1 q = st0 q
    rw [update_stage_false_ne _ _ hne]
    exact runLoop_frame_false t _ r0 st0 q hq

/-- Claim C10 witness: on `tC10w` (an executable at [0], a bare node at
[1]) a run without observer leaves path [1] unset and emits no events. -/
theorem claim_C10_witness :
    (run_sync false tC10w (fun _ => none) 0).stages [1] = none
    ∧ (run_sync false tC10w (fun _ => none) 0).events = [] := by
  have h := claim_C10 tC10w (fun _ => none : SMap Nat Nat) 0
  exact ⟨h.2.2.1 [1] (by decide) (by decide), h.2.2.2⟩

-- region Claims C2, C3, C4

def fA2 : Option Nat → Nat → Except Nat Nat := fun _ r => Except.ok (r + 1)

def fB2 : Option Nat → Nat → Except Nat Nat := fun _ _ => Except.error 9

def fC2 : Option Nat → Nat → Except Nat Nat := fun _ r => Except.ok r

def tC2w : Task Nat Nat Nat :=
  Task.mk "R" none none
    (Tasks.cons (Task.mk "A" (some fA2) none Tasks.nil)
      (Tasks.cons (Task.mk "B" (some fB2) none Tasks.nil)
        (Tasks.cons (Task.mk "C" (some fC2) none Tasks.nil) Tasks.nil)))

def nA2 : ENode Nat Nat Nat := ⟨[0], "A", fA2⟩

def nB2 : ENode Nat Nat Nat := ⟨[1], "B", fB2⟩

def nC2 : ENode Nat Nat Nat := ⟨[2], "C", fC2⟩

/-- Claim C2: when the k-th collected executable always raises and the
earlier ones never do, the run calls exactly the first k+1 collected nodes
(none after position k), transitions node k to `failed` carrying the raised
error, ends the transition sequence with the root's `failed_completed`
carrying that error, stores `failed_completed` on the root and — when node
k is not the root — leaves node k's stored stage `failed`, and propagates
the error as the run result, recorded after the terminal root transition. -/
theorem claim_C2 {γ ε ρ : Type} [ToString ε] (obs : Bool) (t : Task γ ε ρ)
    (st0 : SMap ε ρ) (r0 : ρ) (k : Nat) (l1 : List (ENode γ ε ρ))
    (nk : ENode γ ε ρ) (l2 : List (ENode γ ε ρ))
    (hsplit : run_collect t [] = l1 ++ nk :: l2)
    (hk : l1.length = k)
    (Hok : ∀ n ∈ l1, execOk n.exec)
    (Herr : ∀ c r, ∃ e, nk.exec c r = Except.error e) :
    ∃ e,
      (run_sync obs t st0 r0).result = Except.error e
      ∧ (run_sync obs t st0 r0).calls.map Call.path = l1.map ENode.path ++ [nk.path]
      ∧ (run_sync obs t st0 r0).calls.length = k + 1
      ∧ (nk.path, Stage.failed (some ("Task [" ++ nk.title ++ "] failed.")) (some e))
          ∈ (run_sync obs t st0 r0).transitions
      ∧ (run_sync obs t st0 r0).transitions.getLast? =
          some ([], Stage.failed_completed
            (some ("Task [" ++ t.title ++ "] failed.")) (some e))
      ∧ (run_sync obs t st0 r0).stages [] =
          some (Stage.failed_completed
            (some ("Task [" ++ t.title ++ "] failed.")) (some e))
      ∧ (nk.path ≠ [] → (run_sync obs t st0 r0).stages nk.path =
          some (Stage.failed (some ("Task [" ++ nk.title ++ "] failed.")) (some e))) := by
  obtain ⟨e, h1, h2, h3, h4⟩ := runLoop_fail obs t l1 nk l2 r0 st0 Hok Herr
  rw [← hsplit] at h1 h2 h3 h4
  refine ⟨e, ?_, ?_, ?_, ?_, ?_, ?_, ?_⟩
  · rw [run_sync_result]
    exact h1
  · rw [run_sync_calls]
    exact h2
  · rw [run_sync_calls]
    have hlen := congrArg List.length h2
    simpa [hk] using hlen
  · rw [run_sync_eq_error obs t st0 r0 h1]
    show _ ∈ (runLoop obs t (run_collect t []) r0 st0).transitions ++ _
    exact List.mem_append_left _ h3
  · rw [run_sync_eq_error obs t st0 r0 h1]
    show ((runLoop obs t (run_collect t []) r0 st0).transitions ++ [([], _)]).getLast? = _
    rw [List.getLast?_concat]
  · rw [run_sync_eq_error obs t st0 r0 h1]
    exact update_stage_self _ _ _ _
  · intro hne
    rw [run_sync_eq_error obs t st0 r0 h1]
    show (update_stage obs [] _ _).1 nk.path = _
    rw [update_stage_nil_other _ _ _ hne]
    exact h4

theorem tC2l1_ok : ∀ n ∈ [nA2], execOk n.exec := by
  intro n hn
  simp only [List.mem_singleton] at hn
  subst hn
  exact fun c r => ⟨r + 1, rfl⟩

/-- Claim C2 witness: on `tC2w` (A succeeds, B raises, C never runs) the
run calls exactly paths [0] and [1]. -/
theorem claim_C2_witness :
    (run_sync false tC2w (fun _ => none) 0).calls.map Call.path = [[0], [1]] := by
  obtain ⟨e, h1, h2, h3, h4, h5, h6, h7⟩ :=
    claim_C2 false tC2w (fun _ => none) 0 1 [nA2] nB2 [nC2] rfl rfl tC2l1_ok
      (fun c r => ⟨9, rfl⟩)
  exact h2.trans (by rfl)

def fC3 : Option Nat → Nat → Except Nat Nat := fun _ r => Except.ok (r + 1)

def tC3 : Task Nat Nat Nat :=
  Task.mk "R" none none (Tasks.cons (Task.mk "A" (some fC3) none Tasks.nil) Tasks.nil)

theorem tC3_col : run_collect tC3 [] = [⟨[0], "A", fC3⟩] := rfl

theorem tC3_ok : ∀ n ∈ run_collect tC3 [], execOk n.exec := by
  intro n hn
  rw [tC3_col] at hn
  simp only [List.mem_singleton] at hn
  subst hn
  exact fun c r => ⟨r + 1, rfl⟩

/-- Claim C3 counterexample: in the run of `tC3` the only executable
returns 5 (previous result 4 plus one), yet the success stage stored for
the executed node carries `data = none`, not the returned value — the code
builds the success stage from the message alone. -/
theorem claim_C3_counterexample :
    (run_sync false tC3 (fun _ => none) 4).calls = [⟨[0], none, 4, Except.ok 5⟩]
    ∧ (run_sync false tC3 (fun _ => none) 4).stages [0] =
        some { name := "success", message := some "Task [A] succeeded.",
               data := none, error := none }
    ∧ ((run_sync false tC3 (fun _ => none) 4).stages [0]).map Stage.data
        ≠ some (some 5) := by decide

/-- Claim C3 (amended): for every executed node whose executable returns
normally the node is transitioned to the success stage carrying the
message "Task [title] succeeded." and `data = none` — the returned value
is not stored in the success stage (it is only threaded onward and, for
the whole run, into the root's completion stage); in fact every `success`
transition of any run carries `data = none`. -/
theorem claim_C3_amended {γ ε ρ : Type} [ToString ε] (obs : Bool) (t : Task γ ε ρ)
    (st0 : SMap ε ρ) (r0 : ρ)
    (Hok : ∀ n ∈ run_collect t [], execOk n.exec) :
    (∀ n ∈ run_collect t [],
      (n.path, Stage.success (some ("Task [" ++ n.title ++ "] succeeded.")) none)
        ∈ (run_sync obs t st0 r0).transitions)
    ∧ (∀ pr ∈ (run_sync obs t st0 r0).transitions,
        pr.2.name = "success" → pr.2.data = none) := by
  obtain ⟨v, hv⟩ := (runLoop_ok obs t (run_collect t []) r0 st0 Hok).2.2.2.2.2
  rw [run_sync_eq_ok obs t st0 r0 hv]
  constructor
  · intro n hn
    show _ ∈ (runLoop obs t (run_collect t []) r0 st0).transitions ++ _
    exact List.mem_append_left _ (runLoop_success_trans obs t _ r0 st0 Hok n hn)
  · intro pr hpr hname
    have hpr' : pr ∈ (runLoop obs t (run_collect t []) r0 st0).transitions ++
        [([], Stage.success_completed
          (some ("Task [" ++ t.title ++ "] completed.")) (some v))] := hpr
    rcases List.mem_append.mp hpr' with h | h
    · obtain ⟨p, s⟩ := pr
      exact (runLoop_trans_shape obs t _ r0 st0 p s h).1
    · simp only [List.mem_singleton] at h
      rw [h] at hname
      simp [Stage.success_completed] at hname

/-- Claim C3 (amended) witness: the success transition of the executed
node of `tC3` (which returned 5) carries no data. -/
theorem claim_C3_witness :
    ([0], Stage.success (some ("Task [" ++ "A" ++ "] succeeded.")) none)
      ∈ (run_sync false tC3 (fun _ => none) 4).transitions := by
  have h := (claim_C3_amended false tC3 (fun _ => none) 4 tC3_ok).1
  exact h ⟨[0], "A", fC3⟩ (by rw [tC3_col]; exact List.mem_singleton.mpr rfl)

/-- Claim C4: the run performs exactly one completion transition, it is
the last transition and happens at the root; when no executable raises the
root's stored stage ends `success_completed` carrying the final threaded
result (which the run returns), and when the run propagates an error the
root's stored stage ends `failed_completed` carrying that error even
though the error is returned. -/
theorem claim_C4 {γ ε ρ : Type} [ToString ε] (obs : Bool) (t : Task γ ε ρ)
    (st0 : SMap ε ρ) (r0 : ρ) :
    ((∀ n ∈ run_collect t [], execOk n.exec) →
      ∃ v, (run_sync obs t st0 r0).result = Except.ok v
        ∧ (run_sync obs t st0 r0).stages [] =
            some (Stage.success_completed
              (some ("Task [" ++ t.title ++ "] completed.")) (some v)))
    ∧ ((run_sync obs t st0 r0).transitions.countP (fun pr => pr.2.is_completed) = 1)
    ∧ (∃ sC : Stage ε ρ, (run_sync obs t st0 r0).transitions.getLast? = some ([], sC)
        ∧ sC.is_completed = true)
    ∧ (∀ e, (run_sync obs t st0 r0).result = Except.error e →
        (run_sync obs t st0 r0).stages [] =
          some (Stage.failed_completed
            (some ("Task [" ++ t.title ++ "] failed.")) (some e))) := by
  have hzero : (runLoop obs t (run_collect t []) r0 st0).transitions.countP
      (fun pr => pr.2.is_completed) = 0 := by
    refine List.countP_eq_zero.mpr ?_
    intro pr hpr
    obtain ⟨p, s⟩ := pr
    have hsh := (runLoop_trans_shape obs t _ r0 st0 p s hpr).2
    simp [hsh]
  cases hv : (runLoop obs t (run_collect t []) r0 st0).result with
  | ok v =>
    rw [run_sync_eq_ok obs t st0 r0 hv]
    refine ⟨?_, ?_, ?_, ?_⟩
    · intro _
      exact ⟨v, rfl, update_stage_self _ _ _ _⟩
    · show ((runLoop obs t (run_collect t []) r0 st0).transitions ++
        [([], _)]).countP (fun pr : List Nat × Stage ε ρ => pr.2.is_completed) = 1
      rw [List.countP_append, hzero]
      rfl
    · refine ⟨Stage.success_completed
        (some ("Task [" ++ t.title ++ "] completed.")) (some v), ?_, rfl⟩
      show ((runLoop obs t (run_collect t []) r0 st0).transitions ++
        [([], _)]).getLast? = _
      rw [List.getLast?_concat]
    · intro e he
      exact absurd he (by simp)
  | error e =>
    rw [run_sync_eq_error obs t st0 r0 hv]
    refine ⟨?_, ?_, ?_, ?_⟩
    · intro Hok
      obtain ⟨v, hv'⟩ := (runLoop_ok obs t (run_collect t []) r0 st0 Hok).2.2.2.2.2
      rw [hv] at hv'
      exact absurd hv' (by simp)
    · show ((runLoop obs t (run_collect t []) r0 st0).transitions ++
        [([], _)]).countP (fun pr : List Nat × Stage ε ρ => pr.2.is_completed) = 1
      rw [List.countP_append, hzero]
      rfl
    · refine ⟨Stage.failed_completed
        (some ("Task [" ++ t.title ++ "] failed.")) (some e), ?_, rfl⟩
      show ((runLoop obs t (run_collect t []) r0 st0).transitions ++
        [([], _)]).getLast? = _
      rw [List.getLast?_concat]
    · intro e' he'
      obtain rfl : e = e' := by injection he'
      exact update_stage_self _ _ _ _

/-- Claim C4 witness: the no-failure run of `tC1w` returns a value and
stores it in the root's `success_completed` stage. -/
theorem claim_C4_witness :
    ∃ v, (run_sync false tC1w (fun _ => none) 0).result = Except.ok v
      ∧ (run_sync false tC1w (fun _ => none) 0).stages [] =
          some (Stage.success_completed
            (some ("Task [" ++ tC1w.title ++ "] completed.")) (some v)) :=
  (claim_C4 false tC1w (fun _ => none) 0).1 tC1w_ok

-- region Claims C7, C8

/-- Claim C7: with a non-empty dependency list the `task` builder produces
a synthetic root with no executable, the given title and context, whose
children are exactly the tasks produced by the factories in order followed
by one node wrapping the primary executable under the same title; when the
factories build single executable-bearing nodes, collection and a
no-failure run visit exactly the children [0], ..., [N] in declared order
(dependencies first, primary last). The Python parent reassignment is the
structural attachment of these children to the root. -/
theorem claim_C7 {γ ε ρ : Type} [ToString ε] (title : String) (context : Option γ)
    (deps : List (Unit → Task γ ε ρ)) (w : Option γ → ρ → Except ε ρ)
    (hne : deps ≠ [])
    (hsingle : ∀ f ∈ deps,
      (f ()).children = Tasks.nil ∧ ((f ()).executable).isSome = true) :
    (task title context deps w).executable = none
    ∧ (task title context deps w).title = title
    ∧ (task title context deps w).context = context
    ∧ (task title context deps w).children =
        Tasks.ofList (deps.map (fun f => f ()) ++ [Task.mk title (some w) none Tasks.nil])
    ∧ (run_collect (task title context deps w) []).map ENode.path =
        (List.range (deps.length + 1)).map (fun i => [i])
    ∧ (∀ (st0 : SMap ε ρ) (r0 : ρ),
        (∀ n ∈ run_collect (task title context deps w) [], execOk n.exec) →
        (run_sync false (task title context deps w) st0 r0).calls.map Call.path =
          (List.range (deps.length + 1)).map (fun i => [i])) := by
  have hF : deps.isEmpty = false := by
    cases deps with
    | nil => exact absurd rfl hne
    | cons f fs => rfl
  have htask : task title context deps w =
      Task.mk title none context
        (Tasks.ofList (deps.map (fun f => f ())
          ++ [Task.mk title (some w) none Tasks.nil])) := by
    simp [task, hF]
  have hall : ∀ c ∈ deps.map (fun f => f ()) ++ [Task.mk title (some w) none Tasks.nil],
      c.children = Tasks.nil ∧ (c.executable).isSome = true := by
    intro c hc
    rcases List.mem_append.mp hc with h | h
    · obtain ⟨f, hf, rfl⟩ := List.mem_map.mp h
      exact hsingle f hf
    · simp only [List.mem_singleton] at h
      subst h
      exact ⟨rfl, rfl⟩
  have hcol : (run_collect (task title context deps w) []).map ENode.path =
      (List.range (deps.length + 1)).map (fun i => [i]) := by
    rw [htask]
    simp only [run_collect, List.nil_append]
    rw [run_collect_singles _ [] 0 hall]
    simp only [List.length_append, List.length_map, List.length_singleton]
    apply List.map_congr_left
    intro j _
    simp
  refine ⟨by rw [htask]; rfl, by rw [htask]; rfl, by rw [htask]; rfl,
    by rw [htask]; rfl, hcol, ?_⟩
  intro st0 r0 Hok
  rw [run_sync_calls]
  exact ((runLoop_ok false (task title context deps w) _ r0 st0 Hok).1).trans hcol

def f71 : Option Nat → Nat → Except Nat Nat := fun _ r => Except.ok (r + 1)

def f72 : Option Nat → Nat → Except Nat Nat := fun _ r => Except.ok (r + 2)

def f7p : Option Nat → Nat → Except Nat Nat := fun _ r => Except.ok (r * 10)

def d71 : Unit → Task Nat Nat Nat := fun _ => Task.mk "D1" (some f71) none Tasks.nil

def d72 : Unit → Task Nat Nat Nat := fun _ => Task.mk "D2" (some f72) none Tasks.nil

/-- Claim C7 witness: two single-node dependency factories and a primary
produce a root whose collected executable paths are [0], [1], [2]. -/
theorem claim_C7_witness :
    (run_collect (task "deploy" (none : Option Nat) [d71, d72] f7p) []).map ENode.path
      = [[0], [1], [2]] := by
  have hs : ∀ f ∈ [d71, d72],
      ((f ()).children = Tasks.nil ∧ ((f ()).executable).isSome = true) := by
    intro f hf
    simp only [List.mem_cons, List.not_mem_nil, or_false] at hf
    rcases hf with rfl | rfl
    · exact ⟨rfl, rfl⟩
    · exact ⟨rfl, rfl⟩
  have h := (claim_C7 "deploy" (none : Option Nat) [d71, d72] f7p (by simp) hs).2.2.2.2.1
  exact h.trans (by rfl)

def idsW : List Nat → String := fun _ => "u"

def fC8 : Option Nat → Nat → Except Nat Nat := fun _ r => Except.ok (r + 3)

def tC8w : Task Nat Nat Nat :=
  Task.mk "R" none none (Tasks.cons (Task.mk "A" (some fC8) none Tasks.nil) Tasks.nil)

theorem tC8w_ok : ∀ n ∈ run_collect tC8w [], execOk n.exec := by
  intro n hn
  have hcol : run_collect tC8w [] = [⟨[0], "A", fC8⟩] := rfl
  rw [hcol] at hn
  simp only [List.mem_singleton] at hn
  subst hn
  exact fun c r => ⟨r + 3, rfl⟩

/-- Claim C8: serializing a tree whose stage fields were never set yields
an absent stage for every node; after a run in which no executable raised,
the serialized stage of every executed non-root node has name "success"
and the root's has name "success_completed". -/
theorem claim_C8 {γ ε ρ : Type} [ToString ε] (obs : Bool) (t : Task γ ε ρ)
    (ids : List Nat → String) (st0 : SMap ε ρ) (r0 : ρ) :
    ((Task.to_dict ids (fun _ => none) t []).stagesNone = true)
    ∧ ((∀ n ∈ run_collect t [], execOk n.exec) →
        (∀ p, p ∈ (run_collect t []).map ENode.path → p ≠ [] →
          (TaskDict.stageAt (Task.to_dict ids (run_sync obs t st0 r0).stages t []) p).map
              (Option.map Prod.fst) = some (some "success"))
        ∧ (TaskDict.stageAt (Task.to_dict ids (run_sync obs t st0 r0).stages t []) []).map
            (Option.map Prod.fst) = some (some "success_completed")) := by
  refine ⟨(to_dict_stagesNone ids).1 t [], ?_⟩
  intro Hok
  obtain ⟨v, hv⟩ := (runLoop_ok obs t (run_collect t []) r0 st0 Hok).2.2.2.2.2
  have hroot : (run_sync obs t st0 r0).stages [] =
      some (Stage.success_completed
        (some ("Task [" ++ t.title ++ "] completed.")) (some v)) := by
    rw [run_sync_eq_ok obs t st0 r0 hv]
    exact update_stage_self _ _ _ _
  constructor
  · intro p hp hne
    have hexec : (execAt t p).isSome = true := by
      have h := run_collect_mem.1 t [] p
      simp only [List.nil_append] at h
      exact h.mp hp
    have hsub := sub_isSome_of_execAt hexec
    have hname : ((run_sync obs t st0 r0).stages p).map Stage.name = some "success" := by
      rw [run_sync_eq_ok obs t st0 r0 hv]
      show ((update_stage obs [] _ _).1 p).map Stage.name = _
      rw [update_stage_nil_other _ _ _ hne]
      exact runLoop_success_names obs t _ r0 st0 p Hok (Or.inr hp)
    rw [stageAt_to_dict ids _ p t [] hsub]
    simp only [List.nil_append]
    cases hsp : (run_sync obs t st0 r0).stages p with
    | none => rw [hsp] at hname; simp at hname
    | some s =>
      rw [hsp] at hname
      simp only [Option.map_some', Option.some.injEq] at hname
      simp [Stage.to_dict, hname]
  · rw [stageAt_to_dict ids _ [] t [] (by simp [sub])]
    rw [show ([] : List Nat) ++ [] = [] from rfl, hroot]
    simp [Stage.to_dict, Stage.success_completed]

/-- Claim C8 witness: after the run of `tC8w` the serialized stage at the
executed path [0] has name "success" and the root's has name
"success_completed". -/
theorem claim_C8_witness :
    (TaskDict.stageAt
        (Task.to_dict idsW (run_sync false tC8w (fun _ => none) 0).stages tC8w []) [0]).map
        (Option.map Prod.fst) = some (some "success")
    ∧ (TaskDict.stageAt
        (Task.to_dict idsW (run_sync false tC8w (fun _ => none) 0).stages tC8w []) []).map
        (Option.map Prod.fst) = some (some "success_completed") := by
  have h := (claim_C8 false tC8w idsW (fun _ => none) 0).2 tC8w_ok
  exact ⟨h.1 [0] (by decide) (by decide), h.2⟩

-- endregion

end Pyext
